import Mathlib

/-!
Verification of the position conversion layer in internal/lsp/position.go.

Modelling conventions:
* Document content (Go byte slice) is a `List Nat` of byte values.
* Go protocol.Position stores Line and Character as float64, but every use
  converts them with int(...); we model the fields as `Int`.
* Go token.Pos is modelled as `Int`, with token.NoPos = 0.  A token.FileSet
  holding a single file gives that file base offset 1, so the token.Pos of
  byte offset o is 1 + o.
* (*token.File).Position resolves a token.Pos to a 1-based line and a
  1-based byte column, where the line starts are byte offset 0 together with
  the offset just after every newline byte (value 10); this is the line
  table the go/scanner builds while the file is scanned.
* bytes.IndexByte and unicode/utf8.DecodeRune are modelled by `indexByte`
  and `utf8DecodeRune` below, following the Go standard library semantics
  (a malformed sequence decodes to RuneError = 0xFFFD with size 1).
-/

/-- Go protocol.Position: 0-based line and 0-based UTF-16 column. -/
structure ProtocolPosition where
  Line : Int
  Character : Int
  deriving DecidableEq, Repr

/-- Go protocol.Range. -/
structure ProtocolRange where
  Start : ProtocolPosition
  End : ProtocolPosition
  deriving DecidableEq, Repr

/-- Go source.Range: a pair of token.Pos values. -/
structure SourceRange where
  Start : Int
  End : Int
  deriving DecidableEq, Repr

/-- Go token.NoPos. -/
def noPos : Int := 0

/-- Go (token.Pos).IsValid: p != token.NoPos. -/
def posIsValid (pos : Int) : Bool := pos != 0

/-- Go (*token.File).Pos offset for a single-file FileSet (base 1). -/
def tokPos (offset : Nat) : Int := 1 + offset

/-- The 1-based line of a byte offset: one plus the number of newline bytes
before it (go/token line table semantics for a scanned file). -/
def lineOfOffset (content : List Nat) (o : Nat) : Nat :=
  1 + (content.take o).count 10

/-- The byte offset of the start of the line containing byte offset o:
the largest j with j ≤ o such that j = 0 or a newline byte is at j - 1. -/
def lineStartOfOffset (content : List Nat) : Nat → Nat
  | 0 => 0
  | o + 1 => if content[o]? = some 10 then o + 1 else lineStartOfOffset content o

/-- The 1-based byte column of a byte offset (go/token Position semantics). -/
def colOfOffset (content : List Nat) (o : Nat) : Nat :=
  o - lineStartOfOffset content o + 1

/-- Go bytes.IndexByte: index of the first occurrence, none if absent
(Go returns -1 for absent). -/
def indexByte : List Nat → Nat → Option Nat
  | [], _ => none
  | b :: rest, c => if b = c then some 0 else (indexByte rest c).map (fun i => i + 1)

/-- Go unicode/utf8.DecodeRune: decode the first UTF-8 rune of the list,
returning the rune value and its byte size.  Malformed input yields
(RuneError, 1); the empty list yields (RuneError, 0). -/
def utf8DecodeRune (p : List Nat) : Nat × Nat :=
  match p with
  | [] => (0xFFFD, 0)
  | b0 :: tail =>
    if b0 < 0x80 then (b0, 1)
    else if b0 < 0xC2 then (0xFFFD, 1)
    else if b0 < 0xE0 then
      match tail with
      | [] => (0xFFFD, 1)
      | b1 :: _ =>
        if b1 < 0x80 then (0xFFFD, 1)
        else if 0xBF < b1 then (0xFFFD, 1)
        else (b0 % 0x20 * 0x40 + b1 % 0x40, 2)
    else if b0 < 0xF0 then
      match tail with
      | [] => (0xFFFD, 1)
      | b1 :: tail2 =>
        if b1 < (if b0 = 0xE0 then 0xA0 else 0x80) then (0xFFFD, 1)
        else if (if b0 = 0xED then 0x9F else 0xBF) < b1 then (0xFFFD, 1)
        else
          match tail2 with
          | [] => (0xFFFD, 1)
          | b2 :: _ =>
            if b2 < 0x80 then (0xFFFD, 1)
            else if 0xBF < b2 then (0xFFFD, 1)
            else (b0 % 0x10 * 0x1000 + b1 % 0x40 * 0x40 + b2 % 0x40, 3)
    else if b0 < 0xF5 then
      match tail with
      | [] => (0xFFFD, 1)
      | b1 :: tail2 =>
        if b1 < (if b0 = 0xF0 then 0x90 else 0x80) then (0xFFFD, 1)
        else if (if b0 = 0xF4 then 0x8F else 0xBF) < b1 then (0xFFFD, 1)
        else
          match tail2 with
          | [] => (0xFFFD, 1)
          | b2 :: tail3 =>
            if b2 < 0x80 then (0xFFFD, 1)
            else if 0xBF < b2 then (0xFFFD, 1)
            else
              match tail3 with
              | [] => (0xFFFD, 1)
              | b3 :: _ =>
                if b3 < 0x80 then (0xFFFD, 1)
                else if 0xBF < b3 then (0xFFFD, 1)
                else (b0 % 8 * 0x40000 + b1 % 0x40 * 0x1000 + b2 % 0x40 * 0x40 + b3 % 0x40, 4)
    else (0xFFFD, 1)

theorem le_ite_nat {c : Prop} [Decidable c] {k x y : Nat} (hx : k ≤ x) (hy : k ≤ y) :
    k ≤ if c then x else y := by
  split
  · exact hx
  · exact hy

theorem ite_le_nat {c : Prop} [Decidable c] {k x y : Nat} (hx : x ≤ k) (hy : y ≤ k) :
    (if c then x else y) ≤ k := by
  split
  · exact hx
  · exact hy

theorem utf8DecodeRune_size_pos (b : Nat) (rest : List Nat) :
    1 ≤ (utf8DecodeRune (b :: rest)).2 := by
  rcases rest with _ | ⟨b1, _ | ⟨b2, _ | ⟨b3, tl⟩⟩⟩
  all_goals simp only [utf8DecodeRune, apply_ite Prod.snd]
  all_goals repeat' apply le_ite_nat
  all_goals omega

theorem utf8DecodeRune_size_le (p : List Nat) :
    (utf8DecodeRune p).2 ≤ p.length := by
  rcases p with _ | ⟨b0, _ | ⟨b1, _ | ⟨b2, _ | ⟨b3, tl⟩⟩⟩⟩
  all_goals simp only [utf8DecodeRune, apply_ite Prod.snd, List.length_cons,
    List.length_nil]
  all_goals repeat' apply ite_le_nat
  all_goals omega

theorem drop_decode_lt (b : Nat) (rest : List Nat) :
    ((b :: rest).drop (utf8DecodeRune (b :: rest)).2).length < (b :: rest).length := by
  have h1 := utf8DecodeRune_size_pos b rest
  simp only [List.length_drop, List.length_cons]
  omega

/-- The first loop of columnOffset in position.go: skip `line` lines,
each time cutting the content just after the next newline byte.  Returns
none where the Go loop returns -1 (a sought newline is missing). -/
def skipToLine (content : List Nat) (line : Int) : Option (List Nat) :=
  match content with
  | [] => some []
  | b :: rest =>
    if line = 0 then some (b :: rest)
    else
      match indexByte (b :: rest) 10 with
      | none => none
      | some i => skipToLine ((b :: rest).drop (i + 1)) (line - 1)
termination_by content.length
decreasing_by
  simp [List.drop_succ_cons]
  omega

/-- One step of the UTF-16 unit accounting in columnOffset: char is
incremented once for the rune, and once more when the rune is at or above
U+10000 (surrogate pair accounting). -/
def scanChar (char : Int) (p : List Nat) : Int :=
  if 0x10000 ≤ (utf8DecodeRune p).1 then char + 2 else char + 1

/-- The second loop of columnOffset in position.go: walk the line window one
rune at a time, counting UTF-16 units via scanChar, and return the
accumulated byte offset as soon as the unit counter exceeds the requested
column; -1 if the window is exhausted. -/
def scanColumn (content : List Nat) (char offset col : Int) : Int :=
  match content with
  | [] => -1
  | b :: rest =>
    if col < scanChar char (b :: rest) then offset
    else scanColumn ((b :: rest).drop (utf8DecodeRune (b :: rest)).2)
      (scanChar char (b :: rest)) (offset + ((utf8DecodeRune (b :: rest)).2 : Int)) col
termination_by content.length
decreasing_by
  exact drop_decode_lt _ _

/-- Go columnOffset: byte offset of a protocol position within its line.
The scan window is the line addressed by pos.Line including its
terminating newline byte. -/
def columnOffset (content : List Nat) (pos : ProtocolPosition) : Int :=
  match skipToLine content pos.Line with
  | none => -1
  | some rest =>
    match indexByte rest 10 with
    | some i => scanColumn (rest.take (i + 1)) 0 0 pos.Character
    | none => scanColumn rest 0 0 pos.Character

/-- The binary-search loop of lineStart in position.go, bracketing the
half-open offset interval [mn, mx). -/
def lsLoop (content : List Nat) (line : Int) (mn mx : Nat) : Int :=
  if (lineOfOffset content ((mn + mx) / 2) : Int) = line then
    tokPos ((mn + mx) / 2) - ((colOfOffset content ((mn + mx) / 2) : Int) - 1)
  else if mx ≤ mn + 1 then 0
  else if (lineOfOffset content ((mn + mx) / 2) : Int) < line then
    lsLoop content line ((mn + mx) / 2) mx
  else lsLoop content line mn ((mn + mx) / 2)
termination_by mx - mn
decreasing_by
  all_goals omega

/-- Go lineStart: token.Pos of the first byte of the given 1-based line,
token.NoPos when the search fails. -/
def lineStart (content : List Nat) (line : Int) : Int :=
  lsLoop content line 0 content.length

/-- Go fromProtocolPosition: lineStart of the 1-based line plus the
within-line byte offset from columnOffset. -/
def fromProtocolPosition (content : List Nat) (pos : ProtocolPosition) : Int :=
  lineStart content (pos.Line + 1) + columnOffset content pos

/-- Go toProtocolPosition: the sentinel {-1, -1} for an invalid pos,
otherwise the resolved 0-based line and 0-based byte column.  A pos outside
the token file bounds makes Go (*token.File).Position panic; that is
modelled as none. -/
def toProtocolPosition (content : List Nat) (pos : Int) : Option ProtocolPosition :=
  if posIsValid pos = false then some ⟨-1, -1⟩
  else if pos < 1 ∨ 1 + (content.length : Int) < pos then none
  else
    some ⟨(lineOfOffset content (pos - 1).toNat : Int) - 1,
          (colOfOffset content (pos - 1).toNat : Int) - 1⟩

/-- Go fromProtocolRange: a degenerate range copies the converted start;
a negative end line maps to token.NoPos; otherwise the end is converted
independently. -/
def fromProtocolRange (content : List Nat) (r : ProtocolRange) : SourceRange :=
  let start := fromProtocolPosition content r.Start
  let e : Int :=
    if r.End = r.Start then start
    else if r.End.Line < 0 then noPos
    else fromProtocolPosition content r.End
  ⟨start, e⟩

/-- UTF-16 length of a byte list: the sum over the decoded runes of their
UTF-16 unit counts, mirroring exactly the unit accounting of scanColumn. -/
def utf16Len (content : List Nat) : Nat :=
  match content with
  | [] => 0
  | b :: rest =>
    (if 0x10000 ≤ (utf8DecodeRune (b :: rest)).1 then 2 else 1) +
      utf16Len ((b :: rest).drop (utf8DecodeRune (b :: rest)).2)
termination_by content.length
decreasing_by
  exact drop_decode_lt _ _

/-- o is on a UTF-8 rune boundary of content: reachable from 0 by summing
decoded rune sizes. -/
def isRuneBoundary (content : List Nat) (o : Nat) : Bool :=
  match content, o with
  | _, 0 => true
  | [], _ + 1 => false
  | b :: rest, o + 1 =>
    if o + 1 < (utf8DecodeRune (b :: rest)).2 then false
    else isRuneBoundary ((b :: rest).drop (utf8DecodeRune (b :: rest)).2)
      (o + 1 - (utf8DecodeRune (b :: rest)).2)
termination_by content.length
decreasing_by
  exact drop_decode_lt _ _

/-- Number of lines of the document per the line table: the line of the
end-of-file offset. -/
def totalLines (content : List Nat) : Nat :=
  lineOfOffset content content.length

theorem lineStartOfOffset_le (content : List Nat) (o : Nat) :
    lineStartOfOffset content o ≤ o := by
  induction o with
  | zero => simp [lineStartOfOffset]
  | succ o ih =>
    simp only [lineStartOfOffset]
    split
    · exact Nat.le_refl _
    · exact Nat.le_trans ih (Nat.le_succ o)

theorem lineOfOffset_zero (content : List Nat) : lineOfOffset content 0 = 1 := by
  simp [lineOfOffset]

theorem lineOfOffset_succ (content : List Nat) (o : Nat) :
    lineOfOffset content (o + 1) =
      lineOfOffset content o + (if content[o]? = some 10 then 1 else 0) := by
  simp only [lineOfOffset, List.take_succ, List.count_append]
  rcases h : content[o]? with _ | b
  · simp
  · by_cases hb : b = 10
    · simp [hb, List.count_cons, List.count_nil]
      omega
    · simp [hb, List.count_cons, List.count_nil]

theorem lineOfOffset_mono (content : List Nat) {o1 o2 : Nat} (h : o1 ≤ o2) :
    lineOfOffset content o1 ≤ lineOfOffset content o2 := by
  induction o2 with
  | zero =>
    have h0 : o1 = 0 := by omega
    rw [h0]
  | succ o2 ih =>
    rcases Nat.lt_or_ge o1 (o2 + 1) with h1 | h1
    · have h2 := ih (by omega)
      rw [lineOfOffset_succ]
      split <;> omega
    · have h2 : o1 = o2 + 1 := by omega
      rw [h2]

theorem no_nl_in_line (content : List Nat) (o : Nat) :
    ∀ j, lineStartOfOffset content o ≤ j → j < o → content[j]? ≠ some 10 := by
  induction o with
  | zero => intro j h1 h2; omega
  | succ o ih =>
    intro j h1 h2
    by_cases hnl : content[o]? = some 10
    · simp only [lineStartOfOffset, if_pos hnl] at h1
      omega
    · simp only [lineStartOfOffset, if_neg hnl] at h1
      rcases Nat.lt_or_ge j o with h3 | h3
      · exact ih j h1 h3
      · have h4 : j = o := by omega
        rw [h4]
        exact hnl

theorem nl_lt_lineStart (content : List Nat) {o j : Nat} (hj : content[j]? = some 10)
    (hlt : j < o) : j + 1 ≤ lineStartOfOffset content o := by
  by_contra h
  exact no_nl_in_line content o j (by omega) hlt hj

theorem sameLine_lineStart (content : List Nat) {o1 o2 : Nat} (h : o1 ≤ o2)
    (hline : lineOfOffset content o1 = lineOfOffset content o2) :
    lineStartOfOffset content o1 = lineStartOfOffset content o2 := by
  induction o2 with
  | zero =>
    have h0 : o1 = 0 := by omega
    rw [h0]
  | succ o2 ih =>
    rcases Nat.lt_or_ge o1 (o2 + 1) with h1 | h1
    · by_cases hnl : content[o2]? = some 10
      · have hs := lineOfOffset_succ content o2
        rw [if_pos hnl] at hs
        have hm := lineOfOffset_mono content (show o1 ≤ o2 by omega)
        omega
      · have hs := lineOfOffset_succ content o2
        rw [if_neg hnl] at hs
        have h5 := ih (by omega) (by omega)
        simp only [lineStartOfOffset, if_neg hnl]
        exact h5
    · have h2 : o1 = o2 + 1 := by omega
      rw [h2]

theorem lineOf_one_lineStart (content : List Nat) (o : Nat)
    (h : lineOfOffset content o = 1) : lineStartOfOffset content o = 0 := by
  have h0 : lineOfOffset content 0 = lineOfOffset content o := by
    rw [lineOfOffset_zero, h]
  have := sameLine_lineStart content (Nat.zero_le o) h0
  simp only [lineStartOfOffset] at this
  omega

theorem indexByte_none (l : List Nat) (c : Nat) :
    indexByte l c = none ↔ c ∉ l := by
  induction l with
  | nil => simp [indexByte]
  | cons b rest ih =>
    by_cases hb : b = c
    · simp [indexByte, hb]
    · simp [indexByte, hb, ih, Ne.symm hb]

theorem indexByte_some (l : List Nat) (c : Nat) :
    ∀ i, indexByte l c = some i →
      l[i]? = some c ∧ ∀ j, j < i → l[j]? ≠ some c := by
  induction l with
  | nil => intro i h; simp [indexByte] at h
  | cons b rest ih =>
    intro i h
    simp only [indexByte] at h
    by_cases hb : b = c
    · rw [if_pos hb] at h
      simp only [Option.some.injEq] at h
      subst h
      rw [hb]
      exact ⟨by simp, by intro j hj; omega⟩
    · rw [if_neg hb] at h
      rcases hmap : indexByte rest c with _ | i0 <;> rw [hmap] at h
      · simp at h
      · simp at h
        subst h
        obtain ⟨h1, h2⟩ := ih i0 hmap
        constructor
        · simpa using h1
        · intro j hj
          cases j with
          | zero =>
            simp only [List.getElem?_cons_zero]
            intro hcc
            exact hb (by injection hcc)
          | succ j =>
            simp only [List.getElem?_cons_succ]
            exact h2 j (by omega)

theorem indexByte_append (l1 l2 : List Nat) (c : Nat) (hc : c ∉ l1) :
    indexByte (l1 ++ c :: l2) c = some l1.length := by
  induction l1 with
  | nil => simp [indexByte]
  | cons b rest ih =>
    have hb : b ≠ c := by
      intro h
      exact hc (by rw [h]; exact List.mem_cons_self c rest)
    have hc2 : c ∉ rest := fun h => hc (List.mem_cons_of_mem _ h)
    simp [indexByte, hb, ih hc2]

theorem scanChar_eq (char : Int) (p : List Nat) :
    scanChar char p =
      char + (if 0x10000 ≤ (utf8DecodeRune p).1 then (2 : Int) else 1) := by
  unfold scanChar
  split <;> ring

theorem utf16Len_nil : utf16Len [] = 0 := by
  simp [utf16Len]

theorem utf16Len_cons (b : Nat) (rest : List Nat) :
    utf16Len (b :: rest) =
      (if 0x10000 ≤ (utf8DecodeRune (b :: rest)).1 then 2 else 1) +
        utf16Len ((b :: rest).drop (utf8DecodeRune (b :: rest)).2) := by
  simp only [utf16Len]

theorem scanColumn_nil (char offset col : Int) : scanColumn [] char offset col = -1 := by
  simp only [scanColumn]

theorem scanColumn_cons (b : Nat) (rest : List Nat) (char offset col : Int) :
    scanColumn (b :: rest) char offset col =
      if col < scanChar char (b :: rest) then offset
      else scanColumn ((b :: rest).drop (utf8DecodeRune (b :: rest)).2)
        (scanChar char (b :: rest)) (offset + ((utf8DecodeRune (b :: rest)).2 : Int)) col := by
  simp only [scanColumn]

theorem scanColumn_ge_aux (k : Nat) :
    ∀ (content : List Nat), content.length ≤ k → ∀ (char offset col : Int),
      scanColumn content char offset col = -1 ∨
        offset ≤ scanColumn content char offset col := by
  induction k with
  | zero =>
    intro content hlen char offset col
    have h0 : content = [] := by
      cases content
      · rfl
      · simp at hlen
    rw [h0, scanColumn_nil]
    left
    rfl
  | succ k ih =>
    intro content hlen char offset col
    match content with
    | [] =>
      rw [scanColumn_nil]
      left
      rfl
    | b :: rest =>
      simp only [List.length_cons] at hlen
      rw [scanColumn_cons]
      split
      · right
        exact le_refl offset
      · have hlt := drop_decode_lt b rest
        simp only [List.length_drop, List.length_cons] at hlt
        have hsz : (0 : Int) ≤ ((utf8DecodeRune (b :: rest)).2 : Int) := by positivity
        rcases ih ((b :: rest).drop (utf8DecodeRune (b :: rest)).2)
            (by simp only [List.length_drop, List.length_cons]; omega)
            (scanChar char (b :: rest))
            (offset + ((utf8DecodeRune (b :: rest)).2 : Int)) col with h | h
        · left
          exact h
        · right
          omega

theorem scanColumn_ge (content : List Nat) (char offset col : Int) :
    scanColumn content char offset col = -1 ∨
      offset ≤ scanColumn content char offset col :=
  scanColumn_ge_aux content.length content (le_refl _) char offset col

theorem scanColumn_exhaust_aux (k : Nat) :
    ∀ (content : List Nat), content.length ≤ k → ∀ (char offset col : Int),
      char + (utf16Len content : Int) ≤ col →
      scanColumn content char offset col = -1 := by
  induction k with
  | zero =>
    intro content hlen char offset col hcol
    have h0 : content = [] := by
      cases content
      · rfl
      · simp at hlen
    rw [h0, scanColumn_nil]
  | succ k ih =>
    intro content hlen char offset col hcol
    match content with
    | [] => rw [scanColumn_nil]
    | b :: rest =>
      simp only [List.length_cons] at hlen
      have hlt := drop_decode_lt b rest
      simp only [List.length_drop, List.length_cons] at hlt
      have h16 : (0 : Int) ≤ (utf16Len ((b :: rest).drop (utf8DecodeRune (b :: rest)).2) : Int) := by
        positivity
      rw [utf16Len_cons] at hcol
      push_cast at hcol
      rw [scanColumn_cons, scanChar_eq]
      by_cases hu : 0x10000 ≤ (utf8DecodeRune (b :: rest)).1
      · rw [if_pos hu] at hcol ⊢
        rw [if_neg (by omega)]
        apply ih _ (by simp only [List.length_drop, List.length_cons]; omega)
        omega
      · rw [if_neg hu] at hcol ⊢
        rw [if_neg (by omega)]
        apply ih _ (by simp only [List.length_drop, List.length_cons]; omega)
        omega

theorem scanColumn_exhaust (content : List Nat) (char offset col : Int)
    (hcol : char + (utf16Len content : Int) ≤ col) :
    scanColumn content char offset col = -1 :=
  scanColumn_exhaust_aux content.length content (le_refl _) char offset col hcol

theorem scanColumn_hit_aux (k : Nat) :
    ∀ (content : List Nat), content.length ≤ k → content ≠ [] →
      ∀ (char offset col : Int), col < char + (utf16Len content : Int) →
      offset ≤ scanColumn content char offset col := by
  induction k with
  | zero =>
    intro content hlen hne char offset col hcol
    cases content
    · exact absurd rfl hne
    · simp at hlen
  | succ k ih =>
    intro content hlen hne char offset col hcol
    match content with
    | [] => exact absurd rfl hne
    | b :: rest =>
      simp only [List.length_cons] at hlen
      have hlt := drop_decode_lt b rest
      simp only [List.length_drop, List.length_cons] at hlt
      have hsz : (0 : Int) ≤ ((utf8DecodeRune (b :: rest)).2 : Int) := by positivity
      rw [scanColumn_cons]
      split
      · exact le_refl offset
      · rename_i hcond
        rw [utf16Len_cons] at hcol
        rw [scanChar_eq] at hcond
        push_cast at hcol
        have hdropne : (b :: rest).drop (utf8DecodeRune (b :: rest)).2 ≠ [] := by
          intro hempty
          rw [hempty] at hcol
          rw [utf16Len_nil] at hcol
          split at hcol <;> split at hcond <;> omega
        have hstep := ih ((b :: rest).drop (utf8DecodeRune (b :: rest)).2)
          (by simp only [List.length_drop, List.length_cons]; omega) hdropne
          (scanChar char (b :: rest))
          (offset + ((utf8DecodeRune (b :: rest)).2 : Int)) col
          (by rw [scanChar_eq]
              by_cases hu : 0x10000 ≤ (utf8DecodeRune (b :: rest)).1
              · rw [if_pos hu]
                rw [if_pos hu] at hcol
                omega
              · rw [if_neg hu]
                rw [if_neg hu] at hcol
                omega)
        omega

theorem scanColumn_hit (content : List Nat) (char offset col : Int)
    (hne : content ≠ []) (hcol : col < char + (utf16Len content : Int)) :
    offset ≤ scanColumn content char offset col :=
  scanColumn_hit_aux content.length content (le_refl _) hne char offset col hcol

set_option maxHeartbeats 1000000 in
theorem utf8DecodeRune_append_nl (l : List Nat) (hl : l ≠ []) :
    utf8DecodeRune (l ++ [10]) = utf8DecodeRune l := by
  rcases l with _ | ⟨b0, _ | ⟨b1, _ | ⟨b2, _ | ⟨b3, tl⟩⟩⟩⟩
  · exact absurd rfl hl
  all_goals simp only [List.cons_append, List.nil_append, utf8DecodeRune]
  all_goals first
  | rfl
  | (split_ifs <;> first | rfl | omega)

theorem utf16Len_append_nl_aux (k : Nat) :
    ∀ l : List Nat, l.length ≤ k → utf16Len (l ++ [10]) = utf16Len l + 1 := by
  induction k with
  | zero =>
    intro l hl
    have h0 : l = [] := by
      cases l
      · rfl
      · simp at hl
    rw [h0]
    simp [utf16Len, utf8DecodeRune]
  | succ k ih =>
    intro l hl
    match l with
    | [] => simp [utf16Len, utf8DecodeRune]
    | b :: rest =>
      simp only [List.length_cons] at hl
      have hd := utf8DecodeRune_append_nl (b :: rest) (by simp)
      have hszle := utf8DecodeRune_size_le (b :: rest)
      have hlt := drop_decode_lt b rest
      simp only [List.length_drop, List.length_cons] at hlt
      rw [List.cons_append, utf16Len_cons, ← List.cons_append, hd,
        List.drop_append_of_le_length hszle]
      rw [ih _ (by simp only [List.length_drop, List.length_cons]; omega)]
      rw [utf16Len_cons]
      omega

theorem utf16Len_append_nl (l : List Nat) :
    utf16Len (l ++ [10]) = utf16Len l + 1 :=
  utf16Len_append_nl_aux l.length l (le_refl _)

theorem scanColumn_boundary_aux (k : Nat) :
    ∀ (l : List Nat), l.length ≤ k → ∀ (char offset : Int),
      scanColumn (l ++ [10]) char offset (char + (utf16Len l : Int)) =
        offset + l.length := by
  induction k with
  | zero =>
    intro l hl char offset
    have h0 : l = [] := by
      cases l
      · rfl
      · simp at hl
    rw [h0]
    rw [List.nil_append, utf16Len_nil, scanColumn_cons, scanChar_eq]
    rw [if_pos (by simp [utf8DecodeRune])]
    simp
  | succ k ih =>
    intro l hl char offset
    match l with
    | [] =>
      rw [List.nil_append, utf16Len_nil, scanColumn_cons, scanChar_eq]
      rw [if_pos (by simp [utf8DecodeRune])]
      simp
    | b :: rest =>
      simp only [List.length_cons] at hl
      have hd := utf8DecodeRune_append_nl (b :: rest) (by simp)
      have hszle := utf8DecodeRune_size_le (b :: rest)
      have h16 : (0 : Int) ≤
          (utf16Len ((b :: rest).drop (utf8DecodeRune (b :: rest)).2) : Int) := by
        positivity
      rw [List.cons_append, scanColumn_cons, ← List.cons_append, scanChar_eq, hd,
        List.drop_append_of_le_length hszle, utf16Len_cons]
      push_cast
      by_cases hu : 0x10000 ≤ (utf8DecodeRune (b :: rest)).1
      · rw [if_pos hu]
        rw [if_neg (by omega)]
        have hcol : char + ((2 : Int) +
            (utf16Len ((b :: rest).drop (utf8DecodeRune (b :: rest)).2) : Int)) =
            (char + 2) +
              (utf16Len ((b :: rest).drop (utf8DecodeRune (b :: rest)).2) : Int) := by
          ring
        rw [hcol, ih _ (by
          have hlt := drop_decode_lt b rest
          simp only [List.length_drop, List.length_cons] at hlt ⊢
          omega)]
        simp only [List.length_drop, List.length_cons] at hszle ⊢
        omega
      · rw [if_neg hu]
        rw [if_neg (by omega)]
        have hcol : char + ((1 : Int) +
            (utf16Len ((b :: rest).drop (utf8DecodeRune (b :: rest)).2) : Int)) =
            (char + 1) +
              (utf16Len ((b :: rest).drop (utf8DecodeRune (b :: rest)).2) : Int) := by
          ring
        rw [hcol, ih _ (by
          have hlt := drop_decode_lt b rest
          simp only [List.length_drop, List.length_cons] at hlt ⊢
          omega)]
        simp only [List.length_drop, List.length_cons] at hszle ⊢
        omega

theorem scanColumn_boundary (l : List Nat) (char offset : Int) :
    scanColumn (l ++ [10]) char offset (char + (utf16Len l : Int)) =
      offset + l.length :=
  scanColumn_boundary_aux l.length l (le_refl _) char offset

theorem scanColumn_ascii (m : Nat) :
    ∀ (w : List Nat) (char offset : Int),
      (∀ j, j < m → ∃ bj, w[j]? = some bj ∧ bj < 0x80) →
      m < w.length →
      scanColumn w char offset (char + (m : Int)) = offset + m := by
  induction m with
  | zero =>
    intro w char offset hascii hlen
    match w with
    | [] => simp at hlen
    | b :: rest =>
      rw [scanColumn_cons, scanChar_eq]
      rw [if_pos (by push_cast; split <;> omega)]
      push_cast
      ring
  | succ m ih =>
    intro w char offset hascii hlen
    match w with
    | [] => simp at hlen
    | b :: rest =>
      simp only [List.length_cons] at hlen
      obtain ⟨b0, hb0, hb0lt⟩ := hascii 0 (by omega)
      rw [List.getElem?_cons_zero] at hb0
      have hbb : b < 0x80 := by
        have hb0e : b = b0 := by injection hb0
        omega
      have hdec : utf8DecodeRune (b :: rest) = (b, 1) := by
        simp only [utf8DecodeRune]
        rw [if_pos hbb]
      simp only [scanColumn_cons, scanChar_eq, hdec, List.drop_succ_cons, List.drop_zero]
      rw [if_neg (show ¬(0x10000 ≤ b) by omega)]
      rw [if_neg (by push_cast; omega)]
      push_cast
      have hcol : char + ((m : Int) + 1) = (char + 1) + (m : Int) := by ring
      rw [hcol]
      rw [ih rest (char + 1) (offset + 1)
        (by
          intro j hj
          obtain ⟨bj, hbj, hbjlt⟩ := hascii (j + 1) (by omega)
          rw [List.getElem?_cons_succ] at hbj
          exact ⟨bj, hbj, hbjlt⟩)
        (by omega)]
      ring

theorem count_take_eq_zero (content : List Nat) (i : Nat)
    (hmin : ∀ j, j < i → content[j]? ≠ some 10) :
    (content.take i).count 10 = 0 := by
  rw [List.count_eq_zero]
  intro hmem
  obtain ⟨n, hn⟩ := List.mem_iff_getElem?.mp hmem
  rw [List.getElem?_take] at hn
  by_cases hni : n < i
  · rw [if_pos hni] at hn
    exact hmin n hni hn
  · rw [if_neg hni] at hn
    exact Option.noConfusion hn

theorem count_take_first_nl (content : List Nat) (i : Nat)
    (hi : content[i]? = some 10) (hmin : ∀ j, j < i → content[j]? ≠ some 10) :
    (content.take (i + 1)).count 10 = 1 := by
  rw [List.take_succ, List.count_append, count_take_eq_zero content i hmin, hi]
  rfl

theorem lineOfOffset_drop_nl (content : List Nat) (i o : Nat)
    (hi : content[i]? = some 10) (hmin : ∀ j, j < i → content[j]? ≠ some 10)
    (hio : i < o) :
    lineOfOffset (content.drop (i + 1)) (o - (i + 1)) + 1 = lineOfOffset content o := by
  unfold lineOfOffset
  have hsplit : content.take o =
      List.take (i + 1) content ++ List.take (o - (i + 1)) (List.drop (i + 1) content) := by
    rw [← List.drop_take]
    conv_lhs => rw [← List.take_append_drop (i + 1) (content.take o)]
    rw [List.take_take, Nat.min_eq_left (by omega)]
  rw [hsplit, List.count_append, count_take_first_nl content i hi hmin]
  omega

theorem lineStartOfOffset_drop_nl (content : List Nat) (i : Nat)
    (hi : content[i]? = some 10) :
    ∀ o, i < o →
      lineStartOfOffset (content.drop (i + 1)) (o - (i + 1)) =
        lineStartOfOffset content o - (i + 1) := by
  intro o
  induction o with
  | zero => intro h; omega
  | succ o ih =>
    intro h
    rcases Nat.lt_or_ge i o with h1 | h1
    · have hstep : o + 1 - (i + 1) = (o - (i + 1)) + 1 := by omega
      rw [hstep]
      have hidx : (content.drop (i + 1))[o - (i + 1)]? = content[o]? := by
        rw [List.getElem?_drop]
        congr 1
        omega
      simp only [lineStartOfOffset, hidx]
      split
      · omega
      · rw [ih h1]
    · have ho : o = i := by omega
      subst ho
      have h2 : o + 1 - (o + 1) = 0 := by omega
      rw [h2]
      simp only [lineStartOfOffset, if_pos hi]
      omega

theorem skipToLine_zero (content : List Nat) : skipToLine content 0 = some content := by
  cases content <;> simp [skipToLine]

theorem skipToLine_lineOf_aux (k : Nat) :
    ∀ (content : List Nat) (o : Nat), lineOfOffset content o = k + 1 →
      skipToLine content (k : Int) =
        some (content.drop (lineStartOfOffset content o)) := by
  induction k with
  | zero =>
    intro content o h
    rw [lineOf_one_lineStart content o h]
    rw [List.drop_zero, Nat.cast_zero, skipToLine_zero]
  | succ k ih =>
    intro content o h
    unfold lineOfOffset at h
    have hcnt : 0 < (content.take o).count 10 := by omega
    obtain ⟨n, hn⟩ := List.mem_iff_getElem?.mp (List.count_pos_iff.mp hcnt)
    rw [List.getElem?_take] at hn
    by_cases hno : n < o
    swap
    · rw [if_neg hno] at hn
      exact Option.noConfusion hn
    rw [if_pos hno] at hn
    have hmem : (10 : Nat) ∈ content :=
      List.mem_iff_getElem?.mpr ⟨n, hn⟩
    rcases hidx : indexByte content 10 with _ | i
    · exact absurd hmem ((indexByte_none content 10).mp hidx)
    obtain ⟨hi, hmin⟩ := indexByte_some content 10 i hidx
    have hio : i < o := by
      by_contra hcon
      exact hmin n (by omega) hn
    have hlen : 0 < content.length := by
      obtain ⟨hlt2, _⟩ := List.getElem?_eq_some.mp hi
      omega
    rcases content with _ | ⟨c, cs⟩
    · simp at hlen
    · rw [skipToLine]
      rw [if_neg (by omega)]
      rw [hidx]
      push_cast
      rw [show ((k : Int) + 1 - 1) = (k : Int) by ring]
      have hline2 : lineOfOffset ((c :: cs).drop (i + 1)) (o - (i + 1)) = k + 1 := by
        have hpl := lineOfOffset_drop_nl (c :: cs) i o hi hmin hio
        unfold lineOfOffset at hpl ⊢
        omega
      rw [ih _ _ hline2]
      rw [lineStartOfOffset_drop_nl (c :: cs) i hi o hio]
      rw [List.drop_drop]
      have hls := nl_lt_lineStart (c :: cs) hi hio
      have hfix : (i + 1) + (lineStartOfOffset (c :: cs) o - (i + 1)) =
          lineStartOfOffset (c :: cs) o := by omega
      rw [hfix]

theorem skipToLine_lineOf (content : List Nat) (o : Nat) :
    skipToLine content ((lineOfOffset content o : Int) - 1) =
      some (content.drop (lineStartOfOffset content o)) := by
  have h1 : 1 ≤ lineOfOffset content o := by
    unfold lineOfOffset
    omega
  have h2 : lineOfOffset content o = (lineOfOffset content o - 1) + 1 := by omega
  have h3 : ((lineOfOffset content o : Int)) - 1 =
      ((lineOfOffset content o - 1 : Nat) : Int) := by
    omega
  rw [h3]
  exact skipToLine_lineOf_aux (lineOfOffset content o - 1) content o h2

theorem skipToLine_neg_aux (k : Nat) :
    ∀ content : List Nat, content.length ≤ k → ∀ line : Int, line < 0 →
      skipToLine content line = none ∨ skipToLine content line = some [] := by
  induction k with
  | zero =>
    intro content hlen line hline
    have h0 : content = [] := by
      cases content
      · rfl
      · simp at hlen
    rw [h0]
    right
    rw [skipToLine]
  | succ k ih =>
    intro content hlen line hline
    match content with
    | [] =>
      right
      rw [skipToLine]
    | c :: cs =>
      simp only [List.length_cons] at hlen
      rw [skipToLine]
      rw [if_neg (by omega)]
      rcases hidx : indexByte (c :: cs) 10 with _ | i
      · left
        rfl
      · have hdrop : ((c :: cs).drop (i + 1)).length ≤ k := by
          simp only [List.drop_succ_cons, List.length_drop]
          omega
        exact ih ((c :: cs).drop (i + 1)) hdrop (line - 1) (by omega)

theorem columnOffset_neg (content : List Nat) (pos : ProtocolPosition)
    (h : pos.Line < 0) : columnOffset content pos = -1 := by
  unfold columnOffset
  rcases skipToLine_neg_aux content.length content (le_refl _) pos.Line h with h1 | h1 <;>
    rw [h1]
  simp [indexByte, scanColumn_nil]

theorem lsLoop_finds_aux (content : List Nat) (line : Int) (k : Nat) :
    ∀ (mn mx o : Nat), mx - mn ≤ k → mn ≤ o → o < mx →
      (lineOfOffset content o : Int) = line →
      lsLoop content line mn mx = 1 + (lineStartOfOffset content o : Int) := by
  induction k with
  | zero =>
    intro mn mx o h1 h2 h3 h4
    exfalso
    omega
  | succ k ih =>
    intro mn mx o h1 h2 h3 h4
    rw [lsLoop]
    by_cases hit : (lineOfOffset content ((mn + mx) / 2) : Int) = line
    · rw [if_pos hit]
      have hline : lineOfOffset content ((mn + mx) / 2) = lineOfOffset content o := by
        omega
      have hlso : lineStartOfOffset content ((mn + mx) / 2) =
          lineStartOfOffset content o := by
        rcases Nat.le_total ((mn + mx) / 2) o with hle | hle
        · exact sameLine_lineStart content hle hline
        · exact (sameLine_lineStart content hle hline.symm).symm
      have hle2 := lineStartOfOffset_le content ((mn + mx) / 2)
      simp only [tokPos, colOfOffset]
      rw [hlso] at hle2 ⊢
      omega
    · rw [if_neg hit]
      by_cases hbr : mx ≤ mn + 1
      · exfalso
        have hpr : (mn + mx) / 2 = o := by omega
        rw [hpr] at hit
        exact hit h4
      · rw [if_neg hbr]
        by_cases hlt : (lineOfOffset content ((mn + mx) / 2) : Int) < line
        · rw [if_pos hlt]
          have ho : (mn + mx) / 2 ≤ o := by
            by_contra hcon
            have := lineOfOffset_mono content (show o ≤ (mn + mx) / 2 by omega)
            omega
          exact ih ((mn + mx) / 2) mx o (by omega) ho h3 h4
        · rw [if_neg hlt]
          have ho : o < (mn + mx) / 2 := by
            by_contra hcon
            have := lineOfOffset_mono content (show (mn + mx) / 2 ≤ o by omega)
            omega
          exact ih mn ((mn + mx) / 2) o (by omega) h2 ho h4

theorem lsLoop_none_aux (content : List Nat) (line : Int) (k : Nat) :
    ∀ (mn mx : Nat), mx - mn ≤ k → mn ≤ mx →
      (∀ o, mn ≤ o → o ≤ mx → (lineOfOffset content o : Int) ≠ line) →
      lsLoop content line mn mx = 0 := by
  induction k with
  | zero =>
    intro mn mx h1 h2 hno
    rw [lsLoop]
    rw [if_neg (hno _ (by omega) (by omega))]
    rw [if_pos (by omega)]
  | succ k ih =>
    intro mn mx h1 h2 hno
    rw [lsLoop]
    rw [if_neg (hno _ (by omega) (by omega))]
    by_cases hbr : mx ≤ mn + 1
    · rw [if_pos hbr]
    · rw [if_neg hbr]
      split
      · exact ih ((mn + mx) / 2) mx (by omega) (by omega)
          (fun o h3 h4 => hno o (by omega) h4)
      · exact ih mn ((mn + mx) / 2) (by omega) (by omega)
          (fun o h3 h4 => hno o h3 (by omega))

theorem lineStart_finds (content : List Nat) (o : Nat) (ho : o < content.length) :
    lineStart content (lineOfOffset content o : Int) =
      1 + (lineStartOfOffset content o : Int) := by
  unfold lineStart
  exact lsLoop_finds_aux content _ content.length 0 content.length o (by omega)
    (by omega) ho rfl

theorem lineStart_notfound (content : List Nat) (line : Int)
    (h : (totalLines content : Int) < line) : lineStart content line = 0 := by
  unfold lineStart
  apply lsLoop_none_aux content line content.length 0 content.length (by omega) (by omega)
  intro o h1 h2
  have hm := lineOfOffset_mono content h2
  unfold totalLines at h
  omega

theorem lineStart_nonpos (content : List Nat) (line : Int) (h : line ≤ 0) :
    lineStart content line = 0 := by
  unfold lineStart
  apply lsLoop_none_aux content line content.length 0 content.length (by omega) (by omega)
  intro o h1 h2
  have hp : 1 ≤ lineOfOffset content o := by
    unfold lineOfOffset
    omega
  omega

theorem toProtocolPosition_valid (content : List Nat) (o : Nat) (ho : o ≤ content.length) :
    toProtocolPosition content (tokPos o) =
      some ⟨(lineOfOffset content o : Int) - 1, (colOfOffset content o : Int) - 1⟩ := by
  unfold toProtocolPosition tokPos posIsValid
  rw [if_neg (by simp only [bne_eq_false_iff_eq]; omega)]
  rw [if_neg (by omega)]
  have hto : ((1 : Int) + (o : Int) - 1).toNat = o := by omega
  rw [hto]

theorem fromProtocolPosition_ascii (content : List Nat) (o : Nat) (ho : o < content.length)
    (hascii : ∀ j, lineStartOfOffset content o ≤ j → j < o →
      ∀ bj, content[j]? = some bj → bj < 0x80) :
    fromProtocolPosition content
      ⟨(lineOfOffset content o : Int) - 1, (colOfOffset content o : Int) - 1⟩ =
      tokPos o := by
  have hle := lineStartOfOffset_le content o
  have hB : (colOfOffset content o : Int) - 1 =
      0 + ((o - lineStartOfOffset content o : Nat) : Int) := by
    unfold colOfOffset
    omega
  have hsuffix : ∀ j, j < o - lineStartOfOffset content o →
      ∃ bj, (content.drop (lineStartOfOffset content o))[j]? = some bj ∧ bj < 0x80 := by
    intro j hj
    have hidx : (content.drop (lineStartOfOffset content o))[j]? =
        content[lineStartOfOffset content o + j]? := List.getElem?_drop content _ j
    have hjo : lineStartOfOffset content o + j < o := by omega
    have hjlen : lineStartOfOffset content o + j < content.length := by omega
    rcases hbj : content[lineStartOfOffset content o + j]? with _ | bj
    · exfalso
      rw [List.getElem?_eq_none_iff] at hbj
      omega
    · exact ⟨bj, by rw [hidx, hbj], hascii _ (by omega) hjo bj hbj⟩
  have hline1 : (lineOfOffset content o : Int) - 1 + 1 = (lineOfOffset content o : Int) := by
    ring
  rcases hw : indexByte (content.drop (lineStartOfOffset content o)) 10 with _ | i
  · unfold fromProtocolPosition columnOffset
    dsimp only
    rw [hline1, lineStart_finds content o ho]
    simp only [skipToLine_lineOf content o, hw]
    rw [hB]
    rw [scanColumn_ascii (o - lineStartOfOffset content o) _ 0 0 hsuffix
      (by simp only [List.length_drop]; omega)]
    unfold tokPos
    omega
  · obtain ⟨hi10, hmini⟩ := indexByte_some _ 10 i hw
    have him : o - lineStartOfOffset content o ≤ i := by
      by_contra hcon
      have hnl := no_nl_in_line content o (lineStartOfOffset content o + i)
        (by omega) (by omega)
      rw [← List.getElem?_drop] at hnl
      exact hnl hi10
    have hilen : i < (content.drop (lineStartOfOffset content o)).length := by
      obtain ⟨hlt2, _⟩ := List.getElem?_eq_some.mp hi10
      exact hlt2
    unfold fromProtocolPosition columnOffset
    dsimp only
    rw [hline1, lineStart_finds content o ho]
    simp only [skipToLine_lineOf content o, hw]
    rw [hB]
    rw [scanColumn_ascii (o - lineStartOfOffset content o) _ 0 0
      (by
        intro j hj
        obtain ⟨bj, hbj, hbjlt⟩ := hsuffix j hj
        refine ⟨bj, ?_, hbjlt⟩
        rw [List.getElem?_take]
        rw [if_pos (by omega)]
        exact hbj)
      (by
        rw [List.length_take]
        simp only [List.length_drop]
        omega)]
    unfold tokPos
    omega

theorem columnOffset_line0_window (l rest2 : List Nat) (hl : (10 : Nat) ∉ l) (c : Int) :
    columnOffset (l ++ 10 :: rest2) ⟨0, c⟩ = scanColumn (l ++ [10]) 0 0 c := by
  have htake : (l ++ 10 :: rest2).take (l.length + 1) = l ++ [10] := by
    rw [List.take_append_eq_append_take]
    rw [List.take_of_length_le (by omega)]
    rw [show l.length + 1 - l.length = 1 by omega]
    simp
  unfold columnOffset
  simp only [skipToLine_zero, indexByte_append l rest2 10 hl, htake]

/-- C1: For the document with bytes 97, 98, 10 (the letters ab then a newline)
and protocol position line 0 character 10, the conversion signals the
column-out-of-range failure distinctly: columnOffset returns the error value
-1, which is not a byte offset at all, and the composed fromProtocolPosition
returns token.NoPos.  In general, whenever the forward scan exhausts the
window bytes without the UTF-16 unit counter exceeding the requested column
(the window UTF-16 length is at most the column), scanColumn returns -1,
distinct from every byte offset. -/
theorem claim_C1 :
    columnOffset [97, 98, 10] ⟨0, 10⟩ = -1 ∧
    fromProtocolPosition [97, 98, 10] ⟨0, 10⟩ = noPos ∧
    (∀ (w : List Nat) (c : Int), (utf16Len w : Int) ≤ c →
      scanColumn w 0 0 c = -1 ∧ ∀ o : Nat, scanColumn w 0 0 c ≠ (o : Int)) := by
  refine ⟨?_, ?_, ?_⟩
  · simp [columnOffset, skipToLine, scanColumn, scanChar, indexByte, utf8DecodeRune]
  · simp [fromProtocolPosition, lineStart, lsLoop, lineOfOffset, colOfOffset,
      lineStartOfOffset, tokPos, columnOffset, skipToLine, scanColumn, scanChar,
      indexByte, utf8DecodeRune, noPos]
  · intro w c hc
    have hex := scanColumn_exhaust w 0 0 c (by omega)
    refine ⟨hex, ?_⟩
    intro o
    rw [hex]
    omega

theorem claim_C1_witness :
    (utf16Len [97] : Int) ≤ 5 ∧ scanColumn [97] 0 0 5 = -1 :=
  ⟨by simp [utf16Len, utf8DecodeRune],
    (claim_C1.2.2 [97] 5 (by simp [utf16Len, utf8DecodeRune])).1⟩

/-- C2 counterexample: for the document a, emoji U+1F642, b, newline (bytes
97, 240, 159, 153, 130, 98, 10), converting protocol position line 0
character 3 yields byte offset 5, not 6 as the claim states: the letter b
sits at byte offset 5 (token.Pos 6 at base 1) and byte offset 6 holds the
newline, so the result the claim itself glosses as after the emoji, at b is
offset 5. -/
theorem claim_C2_counterexample :
    columnOffset [97, 240, 159, 153, 130, 98, 10] ⟨0, 3⟩ = 5 ∧
    fromProtocolPosition [97, 240, 159, 153, 130, 98, 10] ⟨0, 3⟩ = tokPos 5 ∧
    tokPos 5 ≠ tokPos 6 ∧
    [97, 240, 159, 153, 130, 98, 10][5]? = some 98 ∧
    [97, 240, 159, 153, 130, 98, 10][6]? = some 10 := by
  refine ⟨?_, ?_, by decide, by decide, by decide⟩
  · simp [columnOffset, skipToLine, scanColumn, scanChar, indexByte, utf8DecodeRune]
  · simp [fromProtocolPosition, lineStart, lsLoop, lineOfOffset, colOfOffset,
      lineStartOfOffset, tokPos, columnOffset, skipToLine, scanColumn, scanChar,
      indexByte, utf8DecodeRune]

/-- C2 amended: for the document a, emoji U+1F642, b, newline, converting
protocol position line 0 character 3 yields byte offset 5 (after the emoji,
at the letter b), and converting line 0 character 1 yields byte offset 1
(the start of the emoji); in general the scan counts 1 UTF-16 unit for a
rune below U+10000 and 2 units for a rune at or above U+10000. -/
theorem claim_C2 :
    columnOffset [97, 240, 159, 153, 130, 98, 10] ⟨0, 3⟩ = 5 ∧
    columnOffset [97, 240, 159, 153, 130, 98, 10] ⟨0, 1⟩ = 1 ∧
    fromProtocolPosition [97, 240, 159, 153, 130, 98, 10] ⟨0, 3⟩ = tokPos 5 ∧
    fromProtocolPosition [97, 240, 159, 153, 130, 98, 10] ⟨0, 1⟩ = tokPos 1 ∧
    (∀ (char : Int) (p : List Nat),
      ((utf8DecodeRune p).1 < 0x10000 → scanChar char p = char + 1) ∧
      (0x10000 ≤ (utf8DecodeRune p).1 → scanChar char p = char + 2)) := by
  refine ⟨?_, ?_, ?_, ?_, ?_⟩
  · simp [columnOffset, skipToLine, scanColumn, scanChar, indexByte, utf8DecodeRune]
  · simp [columnOffset, skipToLine, scanColumn, scanChar, indexByte, utf8DecodeRune]
  · simp [fromProtocolPosition, lineStart, lsLoop, lineOfOffset, colOfOffset,
      lineStartOfOffset, tokPos, columnOffset, skipToLine, scanColumn, scanChar,
      indexByte, utf8DecodeRune]
  · simp [fromProtocolPosition, lineStart, lsLoop, lineOfOffset, colOfOffset,
      lineStartOfOffset, tokPos, columnOffset, skipToLine, scanColumn, scanChar,
      indexByte, utf8DecodeRune]
  · intro char p
    constructor
    · intro h
      unfold scanChar
      rw [if_neg (by omega)]
    · intro h
      unfold scanChar
      rw [if_pos h]

theorem claim_C2_witness :
    0x10000 ≤ (utf8DecodeRune [240, 159, 153, 130]).1 ∧
    scanChar 0 [240, 159, 153, 130] = 2 :=
  ⟨by decide, (claim_C2.2.2.2.2 0 [240, 159, 153, 130]).2 (by decide)⟩

/-- C4: for the ASCII document abc newline def newline (bytes 97, 98, 99, 10,
100, 101, 102, 10), protocol position line 1 character 1 converts to byte
offset 5 (the letter e, token.Pos 6 at base 1), and byte offset 5 converts
back to protocol position line 1 character 1. -/
theorem claim_C4 :
    fromProtocolPosition [97, 98, 99, 10, 100, 101, 102, 10] ⟨1, 1⟩ = tokPos 5 ∧
    toProtocolPosition [97, 98, 99, 10, 100, 101, 102, 10] (tokPos 5) = some ⟨1, 1⟩ := by
  constructor
  · simp [fromProtocolPosition, lineStart, lsLoop, lineOfOffset, colOfOffset,
      lineStartOfOffset, tokPos, columnOffset, skipToLine, scanColumn, scanChar,
      indexByte, utf8DecodeRune]
  · decide

/-- C6: for every byte position that is invalid per the token.Pos convention
(IsValid is false, that is, the position equals token.NoPos), the
offset-to-position conversion returns exactly the sentinel protocol position
with line -1 and character -1. -/
theorem claim_C6 :
    ∀ (content : List Nat) (pos : Int), posIsValid pos = false →
      toProtocolPosition content pos = some ⟨-1, -1⟩ := by
  intro content pos h
  unfold toProtocolPosition
  rw [if_pos h]

theorem claim_C6_witness :
    posIsValid 0 = false ∧ toProtocolPosition [97, 98, 10] 0 = some ⟨-1, -1⟩ :=
  ⟨by decide, claim_C6 [97, 98, 10] 0 (by decide)⟩

/-- C9: for every protocol range whose end equals its start, the range
conversion sets the byte-space end equal to the byte-space start, both being
the single converted value of the start position. -/
theorem claim_C9 :
    ∀ (content : List Nat) (r : ProtocolRange), r.End = r.Start →
      fromProtocolRange content r =
        ⟨fromProtocolPosition content r.Start, fromProtocolPosition content r.Start⟩ := by
  intro content r h
  simp only [fromProtocolRange]
  rw [if_pos h]

theorem claim_C9_witness :
    fromProtocolRange [97] ⟨⟨0, 0⟩, ⟨0, 0⟩⟩ =
      ⟨fromProtocolPosition [97] ⟨0, 0⟩, fromProtocolPosition [97] ⟨0, 0⟩⟩ :=
  claim_C9 [97] ⟨⟨0, 0⟩, ⟨0, 0⟩⟩ rfl

/-- C3 counterexample: for the document with bytes 195, 169, 10 (the letter
e-acute in UTF-8, then a newline), byte offset 2 is inside the document and
on a rune boundary, toProtocolPosition maps its token.Pos to protocol
position line 0 character 2 (byte columns), but converting that position
back through fromProtocolPosition yields 0 (token.NoPos), not the original
position: round-tripping fails on a non-ASCII line because the reverse
conversion reuses the byte column as a UTF-16 column. -/
theorem claim_C3_counterexample :
    (2 < [195, 169, 10].length ∧ isRuneBoundary [195, 169, 10] 2 = true) ∧
    toProtocolPosition [195, 169, 10] (tokPos 2) = some ⟨0, 2⟩ ∧
    fromProtocolPosition [195, 169, 10] ⟨0, 2⟩ = 0 ∧
    (0 : Int) ≠ tokPos 2 := by
  refine ⟨⟨by decide, ?_⟩, by decide, ?_, by decide⟩
  · simp [isRuneBoundary, utf8DecodeRune]
  · simp [fromProtocolPosition, lineStart, lsLoop, lineOfOffset, colOfOffset,
      lineStartOfOffset, tokPos, columnOffset, skipToLine, scanColumn, scanChar,
      indexByte, utf8DecodeRune]

/-- C3 amended: for every byte offset o strictly inside the document such
that every byte of the line of o that lies before o is ASCII (below 0x80),
converting o to a protocol position and back yields o again.  (Ascii
prefixes keep the byte column equal to the UTF-16 column, which is the only
case in which the byte-column approximation of toProtocolPosition round
trips; the counterexample shows it fails otherwise.) -/
theorem claim_C3 :
    ∀ (content : List Nat) (o : Nat), o < content.length →
      (∀ j, lineStartOfOffset content o ≤ j → j < o →
        ∀ bj, content[j]? = some bj → bj < 0x80) →
      ∃ p, toProtocolPosition content (tokPos o) = some p ∧
        fromProtocolPosition content p = tokPos o := by
  intro content o ho hascii
  exact ⟨_, toProtocolPosition_valid content o (by omega),
    fromProtocolPosition_ascii content o ho hascii⟩

theorem claim_C3_witness :
    ∃ p, toProtocolPosition [97, 98, 10] (tokPos 1) = some p ∧
      fromProtocolPosition [97, 98, 10] p = tokPos 1 :=
  claim_C3 [97, 98, 10] 1 (by decide)
    (by
      intro j h1 h2 bj hbj
      have hj : j = 0 := by omega
      subst hj
      simp at hbj
      omega)

/-- C5: for every non-empty document the line-start lookup for line 1
returns the position of byte offset 0; for every line number exceeding the
total line count it returns token.NoPos, and that sentinel differs from the
position of every valid byte offset (in particular from byte offset 0), so
it cannot be mistaken for one. -/
theorem claim_C5 :
    ∀ content : List Nat, content ≠ [] →
      lineStart content 1 = tokPos 0 ∧
      ∀ line : Int, (totalLines content : Int) < line →
        lineStart content line = noPos ∧
        ∀ o : Nat, o ≤ content.length → lineStart content line ≠ tokPos o := by
  intro content hne
  constructor
  · have h0 : 0 < content.length := by
      cases content
      · exact absurd rfl hne
      · simp
    have hf := lineStart_finds content 0 h0
    rw [lineOfOffset_zero] at hf
    simpa [tokPos, lineStartOfOffset] using hf
  · intro line hl
    have h0 := lineStart_notfound content line hl
    refine ⟨by rw [h0]; rfl, ?_⟩
    intro o ho
    rw [h0]
    unfold tokPos
    omega

theorem claim_C5_witness :
    ([97, 98, 10] : List Nat) ≠ [] ∧ (totalLines [97, 98, 10] : Int) < 5 ∧
    lineStart [97, 98, 10] 1 = tokPos 0 ∧ lineStart [97, 98, 10] 5 = noPos := by
  have h := claim_C5 [97, 98, 10] (by decide)
  exact ⟨by decide, by decide, h.1, (h.2 5 (by decide)).1⟩

/-- C7 counterexample: the range conversion checks the degenerate case
before the negative-line case, so for the range whose start and end are both
the sentinel position line -1 character -1 over the document ab newline, the
converted end is -1: it is not token.NoPos, and the IsValid test even
classifies it as a valid position, contradicting the claim that every range
with a negative end line maps the end to an invalid or absent end marker. -/
theorem claim_C7_counterexample :
    ((⟨⟨-1, -1⟩, ⟨-1, -1⟩⟩ : ProtocolRange).End.Line < 0) ∧
    (fromProtocolRange [97, 98, 10] ⟨⟨-1, -1⟩, ⟨-1, -1⟩⟩).End = -1 ∧
    (fromProtocolRange [97, 98, 10] ⟨⟨-1, -1⟩, ⟨-1, -1⟩⟩).End ≠ noPos ∧
    posIsValid (fromProtocolRange [97, 98, 10] ⟨⟨-1, -1⟩, ⟨-1, -1⟩⟩).End = true := by
  have he : (fromProtocolRange [97, 98, 10] ⟨⟨-1, -1⟩, ⟨-1, -1⟩⟩).End = -1 := by
    simp [fromProtocolRange, fromProtocolPosition, lineStart, lsLoop, lineOfOffset,
      colOfOffset, lineStartOfOffset, tokPos, columnOffset, skipToLine, scanColumn,
      scanChar, indexByte, utf8DecodeRune]
  refine ⟨by decide, he, ?_, ?_⟩
  · rw [he]
    decide
  · rw [he]
    decide

/-- C7 amended: for every protocol range whose end line is negative and
whose end differs from its start, the conversion maps the end to
token.NoPos, which IsValid rejects and which differs from the position of
byte offset 0; when the end equals the start (degenerate range), the
degenerate branch wins instead and the end copies the converted start,
which evaluates to -1, a value IsValid misclassifies as valid. -/
theorem claim_C7 :
    ∀ (content : List Nat) (r : ProtocolRange), r.End.Line < 0 →
      (r.End ≠ r.Start → (fromProtocolRange content r).End = noPos ∧
        posIsValid noPos = false) ∧
      (r.End = r.Start → (fromProtocolRange content r).End = -1 ∧
        posIsValid (-1) = true) ∧
      noPos ≠ tokPos 0 := by
  intro content r hneg
  have hcol : ∀ p : ProtocolPosition, p.Line < 0 → fromProtocolPosition content p = -1 := by
    intro p hp
    unfold fromProtocolPosition
    rw [columnOffset_neg content p hp, lineStart_nonpos content _ (by omega)]
    norm_num
  refine ⟨?_, ?_, by decide⟩
  · intro hne
    refine ⟨?_, by decide⟩
    simp only [fromProtocolRange]
    rw [if_neg hne, if_pos hneg]
  · intro heq
    refine ⟨?_, by decide⟩
    simp only [fromProtocolRange]
    rw [if_pos heq]
    apply hcol
    rw [← heq]
    exact hneg

theorem claim_C7_witness :
    ((⟨⟨0, 0⟩, ⟨-1, -1⟩⟩ : ProtocolRange).End.Line < 0) ∧
    ((⟨⟨0, 0⟩, ⟨-1, -1⟩⟩ : ProtocolRange).End ≠ (⟨⟨0, 0⟩, ⟨-1, -1⟩⟩ : ProtocolRange).Start) ∧
    (fromProtocolRange [97] ⟨⟨0, 0⟩, ⟨-1, -1⟩⟩).End = noPos :=
  ⟨by decide, by decide, (((claim_C7 [97] ⟨⟨0, 0⟩, ⟨-1, -1⟩⟩ (by decide)).1) (by decide)).1⟩

/-- C8: for every two valid byte offsets on the same line with o1 before o2,
the offset-to-position conversion is monotone in the column: the character
of the converted o1 is at most the character of the converted o2. -/
theorem claim_C8 :
    ∀ (content : List Nat) (o1 o2 : Nat), o1 < o2 → o2 ≤ content.length →
      lineOfOffset content o1 = lineOfOffset content o2 →
      ∃ p1 p2, toProtocolPosition content (tokPos o1) = some p1 ∧
        toProtocolPosition content (tokPos o2) = some p2 ∧
        p1.Character ≤ p2.Character := by
  intro content o1 o2 h12 h2len hline
  refine ⟨_, _, toProtocolPosition_valid content o1 (by omega),
    toProtocolPosition_valid content o2 h2len, ?_⟩
  show (colOfOffset content o1 : Int) - 1 ≤ (colOfOffset content o2 : Int) - 1
  have hlso := sameLine_lineStart content (show o1 ≤ o2 by omega) hline
  have hle1 := lineStartOfOffset_le content o1
  unfold colOfOffset
  rw [hlso]
  omega

theorem claim_C8_witness :
    (0 < 1 ∧ 1 ≤ [97, 98].length ∧ lineOfOffset [97, 98] 0 = lineOfOffset [97, 98] 1) ∧
    ∃ p1 p2, toProtocolPosition [97, 98] (tokPos 0) = some p1 ∧
      toProtocolPosition [97, 98] (tokPos 1) = some p2 ∧
      p1.Character ≤ p2.Character :=
  ⟨⟨by decide, by decide, by decide⟩,
    claim_C8 [97, 98] 0 1 (by decide) (by decide) (by decide)⟩

/-- C10: the scan window of columnOffset includes the terminating newline
byte of the addressed line, so for line 0 given as a newline-free byte list
l followed by a newline and the rest of the document, with n the UTF-16
length of l: the conversion fails with -1 exactly for requested columns
greater than n; it succeeds (returns a nonnegative byte offset) for every
column at most n; and at column n it returns the byte offset of the newline
byte itself, namely the byte length of l. -/
theorem claim_C10 :
    ∀ (l rest2 : List Nat), (10 : Nat) ∉ l →
      (∀ c : Int, columnOffset (l ++ 10 :: rest2) ⟨0, c⟩ = -1 ↔ (utf16Len l : Int) < c) ∧
      columnOffset (l ++ 10 :: rest2) ⟨0, (utf16Len l : Int)⟩ = l.length ∧
      (∀ c : Int, c ≤ (utf16Len l : Int) →
        0 ≤ columnOffset (l ++ 10 :: rest2) ⟨0, c⟩) := by
  intro l rest2 hl
  have hwin := columnOffset_line0_window l rest2 hl
  have hne : l ++ [10] ≠ [] := by simp
  have h16 := utf16Len_append_nl l
  refine ⟨?_, ?_, ?_⟩
  · intro c
    rw [hwin c]
    constructor
    · intro hm1
      by_contra hcon
      have hh := scanColumn_hit (l ++ [10]) 0 0 c hne (by rw [h16]; push_cast; omega)
      omega
    · intro hgt
      exact scanColumn_exhaust _ 0 0 c (by rw [h16]; push_cast; omega)
  · rw [hwin]
    have hb := scanColumn_boundary l 0 0
    simpa using hb
  · intro c hc
    rw [hwin c]
    exact scanColumn_hit (l ++ [10]) 0 0 c hne (by rw [h16]; push_cast; omega)

theorem claim_C10_witness :
    ((10 : Nat) ∉ [97]) ∧
    columnOffset ([97] ++ 10 :: []) ⟨0, (utf16Len [97] : Int)⟩ = [97].length :=
  ⟨by decide, (claim_C10 [97] [] (by decide)).2.1⟩
